import Mathlib

/-!
Verification of the chat tokenizer module (`llama/tokenizer.py`): the input
chunking stage of `Tokenizer.encode`, the dialog framing protocol of
`MessageFormat` (`encode_header`, `encode_message`, `encode_dialog`,
`decode_header`, `decode_message`) and the token-stream scanning primitives
`_take` and `_take_until`.

Strings are modelled as `List Char`; Python's `str.isspace` is an abstract
character-class predicate `sp : Char → Bool`.  The external subword encoder
(tiktoken) is modelled as an abstract structure `Tokenizer` holding its
`encode`/`decode` functions and the relevant special-token ids.
-/

set_option maxRecDepth 10000

/-! ### The chunking stage of `Tokenizer.encode` -/

/-- Constant `TIKTOKEN_MAX_ENCODE_CHARS` of `Tokenizer.encode`. -/
def TIKTOKEN_MAX_ENCODE_CHARS : Nat := 400000

/-- Constant `MAX_NO_WHITESPACES_CHARS` of `Tokenizer.encode`. -/
def MAX_NO_WHITESPACES_CHARS : Nat := 25000

/-- Loop body of `Tokenizer._split_whitespaces_or_nonwhitespaces`.
The arguments mirror the Python loop state: the remaining characters
(`s.drop i`), the loop index `i`, `slice_start`, `current_slice_is_space`
and `current_slice_len`.  Slices are produced exactly as in the source:
`s[slice_start:i]` on an overflow cut, and the final `s[slice_start:]`. -/
def splitWsAux (sp : Char → Bool) (m2 : Nat) (s : List Char) :
    List Char → Nat → Nat → Bool → Nat → List (List Char)
  | [], _i, sliceStart, _cls, _len => [s.drop sliceStart]
  | c :: rest, i, sliceStart, cls, len =>
    if cls ≠ sp c then
      splitWsAux sp m2 s rest (i+1) sliceStart (sp c) 1
    else if m2 < len + 1 then
      ((s.drop sliceStart).take (i - sliceStart)) :: splitWsAux sp m2 s rest (i+1) i (sp c) 1
    else
      splitWsAux sp m2 s rest (i+1) sliceStart cls (len+1)

/-- Initial value of `current_slice_is_space`:
`s[0].isspace() if len(s) > 0 else False`. -/
def headClass (sp : Char → Bool) : List Char → Bool
  | [] => false
  | c :: _ => sp c

/-- `Tokenizer._split_whitespaces_or_nonwhitespaces(s, max_consecutive_slice_len)`:
`current_slice_len` starts at 0, `current_slice_is_space` is the class of
`s[0]` (`False` for empty input), `slice_start` is 0. -/
def splitWsOrNonWs (sp : Char → Bool) (s : List Char) (m2 : Nat) : List (List Char) :=
  splitWsAux sp m2 s s 0 0 (headClass sp s) 0

/-- Fuelled form of the hard-slicing loop
`for i in range(0, len(s), TIKTOKEN_MAX_ENCODE_CHARS): s[i:i+TIKTOKEN_MAX_ENCODE_CHARS]`.
Each iteration consumes `TIKTOKEN_MAX_ENCODE_CHARS ≥ 1` characters, so fuel
`s.length` always suffices; an empty string gives an empty range, hence no
slices. -/
def hardSlicesGo : Nat → List Char → List (List Char)
  | _, [] => []
  | 0, _ :: _ => []
  | fuel+1, c :: cs =>
    ((c :: cs).take TIKTOKEN_MAX_ENCODE_CHARS) ::
      hardSlicesGo fuel ((c :: cs).drop TIKTOKEN_MAX_ENCODE_CHARS)

/-- The hard slices `s[i:i+TIKTOKEN_MAX_ENCODE_CHARS]` of `Tokenizer.encode`. -/
def hardSlices (s : List Char) : List (List Char) :=
  hardSlicesGo s.length s

/-- The chunking stage of `Tokenizer.encode` with the inner run limit left as
a parameter `m2` (the source fixes it to `MAX_NO_WHITESPACES_CHARS`): each
hard slice is further split by `_split_whitespaces_or_nonwhitespaces`. -/
def chunkStageWith (sp : Char → Bool) (m2 : Nat) (s : List Char) : List (List Char) :=
  ((hardSlices s).map (fun h => splitWsOrNonWs sp h m2)).flatten

/-- The `substrs` generator of `Tokenizer.encode`: hard slicing at
`TIKTOKEN_MAX_ENCODE_CHARS` followed by `_split_whitespaces_or_nonwhitespaces`
with limit `MAX_NO_WHITESPACES_CHARS`. -/
def encodeSubstrs (sp : Char → Bool) (s : List Char) : List (List Char) :=
  chunkStageWith sp MAX_NO_WHITESPACES_CHARS s

/-- Accumulator form of the split loop: the current slice is carried in
reverse (`racc`), instead of being re-sliced out of `s` by indices. -/
def splitRun (sp : Char → Bool) (m2 : Nat) :
    List Char → Bool → Nat → List Char → List (List Char)
  | [], _cls, _len, racc => [racc.reverse]
  | c :: rest, cls, len, racc =>
    if cls ≠ sp c then
      splitRun sp m2 rest (sp c) 1 (c :: racc)
    else if m2 < len + 1 then
      racc.reverse :: splitRun sp m2 rest (sp c) 1 [c]
    else
      splitRun sp m2 rest cls (len+1) (c :: racc)

/-! ### Run bounds for the chunking stage -/

/-- A list has no run of consecutive characters of the same class (under
`sp`) longer than `m`: every contiguous segment whose characters all share
one class has length at most `m`. -/
def noLongRun (sp : Char → Bool) (m : Nat) (l : List Char) : Prop :=
  ∀ (a run b : List Char) (cls : Bool), l = a ++ run ++ b →
    (∀ c ∈ run, sp c = cls) → run.length ≤ m

/-- Length of the maximal leading run of class `cls`. -/
def leadRunLen (sp : Char → Bool) (cls : Bool) : List Char → Nat
  | [] => 0
  | c :: r => if sp c = cls then leadRunLen sp cls r + 1 else 0

/-! ### The dialog framing protocol (`MessageFormat`)

The external subword encoder (tiktoken) is abstract: `enc` is
`Tokenizer.encode(s, bos=False, eos=False)` with the default special-token
policy, `encAll` the same with `allowed_special="all"` (as used by `_take`
and `_take_until`), and `dec` is `Tokenizer.decode`.  The five special-token
ids are the relevant entries of the special token registry. -/

structure Tokenizer where
  enc : String → List Nat
  encAll : String → List Nat
  dec : List Nat → String
  bosId : Nat
  eosId : Nat
  startHeaderId : Nat
  endHeaderId : Nat
  eotId : Nat

/-- A chat message: `role` and optional `content`
(`Message` is a `TypedDict` with `total=False`). -/
structure Message where
  role : String
  content : Option String
deriving DecidableEq

/-- Model of Python's `str.strip()`: drop whitespace from both ends. -/
def pyStrip (s : String) : String :=
  String.mk (((s.data.dropWhile Char.isWhitespace).reverse.dropWhile Char.isWhitespace).reverse)

/-- `MessageFormat.encode_header`. -/
def encode_header (tok : Tokenizer) (m : Message) : List Nat :=
  [tok.startHeaderId] ++ tok.enc m.role ++ [tok.endHeaderId] ++ tok.enc "\n\n"

/-- `MessageFormat.encode_message`: the content segment is appended only when
`message.get("content", "")` is truthy (a non-empty string), and is then the
encoding of the stripped content; `<|eot_id|>` is always appended. -/
def encode_message (tok : Tokenizer) (m : Message) : List Nat :=
  encode_header tok m ++
    (if (m.content.getD "") ≠ "" then tok.enc (pyStrip (m.content.getD "")) else []) ++
    [tok.eotId]

/-- `MessageFormat.encode_dialog`.  `none` models the `IndexError` raised by
`dialog[-1]` on an empty dialog (reached only when `eos` is false). -/
def encode_dialog (tok : Tokenizer) (dialog : List Message) (bos eos : Bool) :
    Option (List Nat) :=
  let tokens := (if bos then [tok.bosId] else []) ++ (dialog.map (encode_message tok)).flatten
  if eos then some (tokens ++ [tok.eosId])
  else
    match dialog.getLast? with
    | none => none
    | some last => if last.role = "assistant" then some tokens.dropLast else some tokens

/-- Result of a decode step: `ok`, a `ParseError`, or the `IndexError` that
`t[0]` raises on an empty candidate encoding inside `_take_until`. -/
inductive PRes (α : Type) where
  | ok : α → PRes α
  | perror : PRes α
  | ierror : PRes α
deriving DecidableEq

/-- `MessageFormat._take`: return the first candidate whose encoded form is a
literal front segment of the stream; `none` models the `ParseError`. -/
def take (tok : Tokenizer) (tokens : List Nat) : List String → Option (List Nat × List Nat)
  | [] => none
  | s :: rest =>
    let t := tok.encAll s
    if tokens.length < t.length then take tok tokens rest
    else if tokens.take t.length = t then some (tokens.drop t.length, tokens.take t.length)
    else take tok tokens rest

/-- `list.index(x, offset)` restricted to a sublist: index of the first
occurrence of `x` in `l`. -/
def firstIdx : List Nat → Nat → Option Nat
  | [], _ => none
  | y :: rest, x => if y = x then some 0 else (firstIdx rest x).map (· + 1)

/-- Python's `tokens.index(x, offset)`: first index `≥ offset` holding `x`
(`none` models the `ValueError`). -/
def indexFrom (tokens : List Nat) (x : Nat) (off : Nat) : Option Nat :=
  (firstIdx (tokens.drop off) x).map (· + off)

/-- The window comparison `tokens[offset:offset+len(t)] == t`. -/
def matchAt (tokens t : List Nat) (off : Nat) : Bool :=
  decide ((tokens.drop off).take t.length = t)

/-- Outcome of the inner `while` loop of `_take_until` for one candidate. -/
inductive SRes where
  | found : Nat → SRes
  | nomatch : SRes
  | crash : SRes
deriving DecidableEq

/-- The inner `while offset < len(tokens)` loop of `_take_until`, fuelled.
Faithful to the source: after a failed window comparison the loop re-enters
with the *same* offset (`offset = tokens.index(t[0], offset)` finds the same
position again), which is why fuel is needed; `none` means the loop has not
terminated within `fuel` iterations.  `crash` is the `IndexError` of `t[0]`
on an empty candidate encoding; `nomatch` covers both the caught
`ValueError` and a normal exit of the `while` loop. -/
def searchCand (tokens t : List Nat) : Nat → Nat → Option SRes
  | 0, _off => none
  | fuel+1, off =>
    if off < tokens.length then
      match t with
      | [] => some SRes.crash
      | t0 :: _ =>
        match indexFrom tokens t0 off with
        | none => some SRes.nomatch
        | some o => if matchAt tokens t o then some (SRes.found o) else searchCand tokens t fuel o
    else some SRes.nomatch

/-- The candidate loop of `MessageFormat._take_until`, over already-encoded
candidates, carrying `best`.  On exhaustion it returns the three slices
`tokens[best0+len:]`, `tokens[:best0]`, `tokens[best0:best0+len]`, or a
`ParseError` when `best` is still `None`. -/
def takeUntilCands (tokens : List Nat) (fuel : Nat) :
    List (List Nat) → Option (Nat × List Nat) → Option (PRes (List Nat × List Nat × List Nat))
  | [], none => some PRes.perror
  | [], some (off, t) =>
    some (PRes.ok (tokens.drop (off + t.length), tokens.take off, (tokens.drop off).take t.length))
  | t :: rest, best =>
    if tokens.length < t.length then takeUntilCands tokens fuel rest best
    else
      match searchCand tokens t fuel 0 with
      | none => none
      | some SRes.crash => some PRes.ierror
      | some SRes.nomatch => takeUntilCands tokens fuel rest best
      | some (SRes.found off) =>
        match best with
        | none => takeUntilCands tokens fuel rest (some (off, t))
        | some (boff, bt) =>
          if off < boff then takeUntilCands tokens fuel rest (some (off, t))
          else takeUntilCands tokens fuel rest (some (boff, bt))

/-- `MessageFormat._take_until(tokens, *expected_strs)`, fuelled. -/
def take_until (tok : Tokenizer) (fuel : Nat) (tokens : List Nat) (cands : List String) :
    Option (PRes (List Nat × List Nat × List Nat)) :=
  takeUntilCands tokens fuel (cands.map tok.encAll) none

/-- `MessageFormat.decode_header`: take `<|start_header_id|>`, take until
`<|end_header_id|>` (the role tokens), take `"\n\n"`, decode the role.  The
returned message has no content field yet. -/
def decode_header (tok : Tokenizer) (fuel : Nat) (tokens : List Nat) :
    Option (PRes (List Nat × Message)) :=
  match take tok tokens ["<|start_header_id|>"] with
  | none => some PRes.perror
  | some (tokens1, _) =>
    match takeUntilCands tokens1 fuel [tok.encAll "<|end_header_id|>"] none with
    | none => none
    | some PRes.perror => some PRes.perror
    | some PRes.ierror => some PRes.ierror
    | some (PRes.ok (tokens2, tokensRole, _)) =>
      match take tok tokens2 ["\n\n"] with
      | none => some PRes.perror
      | some (tokens3, _) => some (PRes.ok (tokens3, ⟨tok.dec tokensRole, none⟩))

/-- `MessageFormat.decode_message`: decode the header, then take until
`<|eot_id|>` and decode the content tokens; the content field is always set. -/
def decode_message (tok : Tokenizer) (fuel : Nat) (tokens : List Nat) :
    Option (PRes (List Nat × Message)) :=
  match decode_header tok fuel tokens with
  | none => none
  | some PRes.perror => some PRes.perror
  | some PRes.ierror => some PRes.ierror
  | some (PRes.ok (tokens1, msg)) =>
    match takeUntilCands tokens1 fuel [tok.encAll "<|eot_id|>"] none with
    | none => none
    | some PRes.perror => some PRes.perror
    | some PRes.ierror => some PRes.ierror
    | some (PRes.ok (tokens2, tokensContent, _)) =>
      some (PRes.ok (tokens2, ⟨msg.role, some (tok.dec tokensContent)⟩))

/-- `decode_message` with enough fuel for the single-token special candidates
used by the source (any positive fuel terminates those searches). -/
def decode_messageRun (tok : Tokenizer) (tokens : List Nat) :
    Option (PRes (List Nat × Message)) :=
  decode_message tok (tokens.length + 1) tokens


/-! ### Occurrence of a candidate sequence, and a concrete witness tokenizer -/

/-- The encoded candidate `t` occurs contiguously in `tokens` at offset
`off`. -/
def occursAt (tokens t : List Nat) (off : Nat) : Prop :=
  (tokens.drop off).take t.length = t

instance (tokens t : List Nat) (off : Nat) : Decidable (occursAt tokens t off) := by
  unfold occursAt
  infer_instance

/-- Invariant carried by the candidate loop of `_take_until`: what `best`
says about the candidates processed so far (`done`). -/
def BestInv (tokens : List Nat) (done : List (List Nat)) :
    Option (Nat × List Nat) → Prop
  | none => ∀ t ∈ done, ∀ o, ¬ occursAt tokens t o
  | some (off, t) =>
      occursAt tokens t off ∧
      (∃ d1 d2, done = d1 ++ t :: d2 ∧ ∀ t' ∈ d1, ¬ occursAt tokens t' off) ∧
      (∀ t' ∈ done, ∀ o, occursAt tokens t' o → off ≤ o)

/-- Claim C3 as stated: whenever the encoded forms of two different
candidates occur at different starting positions, `_take_until` returns the
match at the earliest starting position regardless of listing order.
(`s1` occurs strictly earlier but is listed second.) -/
def TakeUntilEarliestClaim : Prop :=
  ∀ (tok : Tokenizer) (tokens : List Nat) (s1 s2 : String) (o1 o2 : Nat),
    tok.encAll s1 ≠ [] → tok.encAll s2 ≠ [] →
    occursAt tokens (tok.encAll s1) o1 → occursAt tokens (tok.encAll s2) o2 →
    o1 < o2 → (∀ o, o < o1 → ¬ occursAt tokens (tok.encAll s1) o) →
    ∃ fuel r p m, take_until tok fuel tokens [s2, s1] = some (PRes.ok (r, p, m)) ∧
      p = tokens.take o1

/-- A concrete instantiation of the abstract subword encoder, for witnesses:
ordinary encoding maps every character to its code point; the five special
strings map to ids above the code-point range. -/
def toyEnc (s : String) : List Nat := s.data.map Char.toNat

def toyDec (l : List Nat) : String := String.mk (l.map Char.ofNat)

def toyEncAll (s : String) : List Nat :=
  if s = "<|begin_of_text|>" then [2000003]
  else if s = "<|end_of_text|>" then [2000004]
  else if s = "<|start_header_id|>" then [2000000]
  else if s = "<|end_header_id|>" then [2000001]
  else if s = "<|eot_id|>" then [2000002]
  else toyEnc s

def toyTok : Tokenizer :=
  ⟨toyEnc, toyEncAll, toyDec, 2000003, 2000004, 2000000, 2000001, 2000002⟩

/-! ### Theorems -/

theorem take_succ_of_drop {α : Type} : ∀ (l : List α) (k : Nat) (c : α) (r : List α),
    l.drop k = c :: r → l.take (k+1) = l.take k ++ [c]
  | [], k, c, r, h => by simp at h
  | x :: xs, 0, c, r, h => by
    simp at h
    simp [h.1]
  | x :: xs, k+1, c, r, h => by
    simp at h ⊢
    exact take_succ_of_drop xs k c r h

/-- The indexed split loop equals the accumulator form: the slice built so
far is `(s.drop sliceStart).take (i - sliceStart)`. -/
theorem splitWsAux_eq_splitRun (sp : Char → Bool) (m2 : Nat) (s : List Char) :
    ∀ (rest : List Char) (i sliceStart : Nat) (cls : Bool) (len : Nat),
      rest = s.drop i → sliceStart ≤ i →
      splitWsAux sp m2 s rest i sliceStart cls len =
        splitRun sp m2 rest cls len ((s.drop sliceStart).take (i - sliceStart)).reverse
  | [], i, sliceStart, cls, len, hrest, hle => by
    have hlen : s.length ≤ i := by
      have := congrArg List.length hrest
      simp at this
      omega
    have hfull : (s.drop sliceStart).take (i - sliceStart) = s.drop sliceStart := by
      apply List.take_of_length_le
      simp
      omega
    simp only [splitWsAux, splitRun, hfull, List.reverse_reverse]
  | c :: rest, i, sliceStart, cls, len, hrest, hle => by
    have hdropi : s.drop i = c :: rest := hrest.symm
    have hstep : s.drop (i+1) = rest := by
      have : (s.drop i).drop 1 = s.drop (i+1) := by
        rw [List.drop_drop]
      rw [hdropi] at this
      simpa using this.symm
    have hslice : ∀ a : Nat, a ≤ i →
        (s.drop a).take (i + 1 - a) = (s.drop a).take (i - a) ++ [c] := by
      intro a ha
      have hd : (s.drop a).drop (i - a) = c :: rest := by
        rw [List.drop_drop]
        have harith2 : a + (i - a) = i := by omega
        rw [harith2, hdropi]
      have := take_succ_of_drop (s.drop a) (i - a) c rest hd
      have harith : i + 1 - a = (i - a) + 1 := by omega
      rw [harith]
      exact this
    have hselfslice : (s.drop i).take (i + 1 - i) = [c] := by
      have : i + 1 - i = 1 := by omega
      rw [this, hdropi]
      rfl
    by_cases hcls : cls ≠ sp c
    · rw [splitWsAux, splitRun]
      simp only [if_pos hcls]
      rw [splitWsAux_eq_splitRun sp m2 s rest (i+1) sliceStart (sp c) 1 hstep.symm (by omega)]
      rw [hslice sliceStart hle]
      simp
    · by_cases hover : m2 < len + 1
      · rw [splitWsAux, splitRun]
        simp only [if_neg hcls, if_pos hover]
        rw [splitWsAux_eq_splitRun sp m2 s rest (i+1) i (sp c) 1 hstep.symm (by omega)]
        rw [hselfslice]
        simp
      · rw [splitWsAux, splitRun]
        simp only [if_neg hcls, if_neg hover]
        rw [splitWsAux_eq_splitRun sp m2 s rest (i+1) sliceStart cls (len+1) hstep.symm (by omega)]
        rw [hslice sliceStart hle]
        push_neg at hcls
        simp [hcls]

theorem splitWsOrNonWs_eq_splitRun (sp : Char → Bool) (s : List Char) (m2 : Nat) :
    splitWsOrNonWs sp s m2 = splitRun sp m2 s (headClass sp s) 0 [] := by
  rw [splitWsOrNonWs, splitWsAux_eq_splitRun sp m2 s s 0 0 _ 0 (by simp) (by omega)]
  simp

/-- Concatenating the slices of the accumulator loop gives back the pending
slice followed by the unprocessed characters. -/
theorem splitRun_join (sp : Char → Bool) (m2 : Nat) :
    ∀ (rest : List Char) (cls : Bool) (len : Nat) (racc : List Char),
      (splitRun sp m2 rest cls len racc).flatten = racc.reverse ++ rest
  | [], cls, len, racc => by simp [splitRun]
  | c :: rest, cls, len, racc => by
    by_cases hcls : cls ≠ sp c
    · rw [splitRun]
      simp only [if_pos hcls]
      rw [splitRun_join sp m2 rest (sp c) 1 (c :: racc)]
      simp
    · by_cases hover : m2 < len + 1
      · rw [splitRun]
        simp only [if_neg hcls, if_pos hover]
        rw [List.flatten_cons, splitRun_join sp m2 rest (sp c) 1 [c]]
        simp
      · rw [splitRun]
        simp only [if_neg hcls, if_neg hover]
        rw [splitRun_join sp m2 rest cls (len+1) (c :: racc)]
        simp

/-- Concatenating the output of `_split_whitespaces_or_nonwhitespaces`
reproduces its input. -/
theorem splitWsOrNonWs_join (sp : Char → Bool) (s : List Char) (m2 : Nat) :
    (splitWsOrNonWs sp s m2).flatten = s := by
  rw [splitWsOrNonWs_eq_splitRun, splitRun_join]
  simp

theorem hardSlicesGo_join : ∀ (fuel : Nat) (s : List Char), s.length ≤ fuel →
    (hardSlicesGo fuel s).flatten = s
  | _, [], _ => by cases ‹Nat› <;> simp [hardSlicesGo]
  | 0, c :: cs, h => by simp at h
  | fuel+1, c :: cs, h => by
    rw [hardSlicesGo, List.flatten_cons]
    rw [hardSlicesGo_join fuel ((c :: cs).drop TIKTOKEN_MAX_ENCODE_CHARS)
      (by simp [TIKTOKEN_MAX_ENCODE_CHARS] at h ⊢; omega)]
    exact List.take_append_drop _ _

theorem hardSlices_join (s : List Char) : (hardSlices s).flatten = s :=
  hardSlicesGo_join s.length s (Nat.le_refl _)

/-- C4: concatenating the chunking-stage output of `encode` in order
reproduces the input string, for every run limit `m2 ≥ 1`. -/
theorem chunkStage_reconstruction (sp : Char → Bool) (s : List Char) (m2 : Nat)
    (h : 1 ≤ m2) : (chunkStageWith sp m2 s).flatten = s := by
  rw [chunkStageWith]
  have : ∀ hs : List (List Char), ((hs.map (fun h => splitWsOrNonWs sp h m2)).flatten).flatten = hs.flatten := by
    intro hs
    induction hs with
    | nil => simp
    | cons h t ih => simp [splitWsOrNonWs_join, ih]
  rw [this, hardSlices_join]

/-- Witness for C4 at a concrete input. -/
theorem chunkStage_reconstruction_witness :
    (1 : Nat) ≤ 1 ∧
      (chunkStageWith (fun c => c.isWhitespace) 1 ("ab c".data)).flatten = "ab c".data :=
  ⟨by decide, chunkStage_reconstruction (fun c => c.isWhitespace) ("ab c".data) 1 (by decide)⟩

theorem noLongRun_nil (sp : Char → Bool) (m : Nat) : noLongRun sp m [] := by
  intro a run b cls heq _hrun
  have : run.length = 0 := by
    have := congrArg List.length heq
    simp at this
    omega
  omega

theorem noLongRun_singleton (sp : Char → Bool) (m : Nat) (hm : 1 ≤ m) (c : Char) :
    noLongRun sp m [c] := by
  intro a run b cls heq _hrun
  have := congrArg List.length heq
  simp at this
  omega

theorem noLongRun_reverse (sp : Char → Bool) (m : Nat) (l : List Char)
    (h : noLongRun sp m l) : noLongRun sp m l.reverse := by
  intro a run b cls heq hrun
  have hrev : l = b.reverse ++ run.reverse ++ a.reverse := by
    have := congrArg List.reverse heq
    simpa [List.reverse_append, List.append_assoc] using this
  have := h b.reverse run.reverse a.reverse cls hrev (by
    intro c hc
    exact hrun c (by simpa using hc))
  simpa using this

theorem prefRun_le_leadRunLen (sp : Char → Bool) (cls : Bool) :
    ∀ (run b l : List Char), l = run ++ b → (∀ c ∈ run, sp c = cls) →
      run.length ≤ leadRunLen sp cls l
  | [], b, l, _heq, _hrun => by simp
  | c :: run', b, l, heq, hrun => by
    subst heq
    have hc : sp c = cls := hrun c (by simp)
    simp only [leadRunLen, List.cons_append, hc, if_pos]
    have := prefRun_le_leadRunLen sp cls run' b (run' ++ b) rfl
      (fun d hd => hrun d (by simp [hd]))
    simp at this ⊢
    omega

theorem noLongRun_cons_of_leadRun (sp : Char → Bool) (m : Nat) (c : Char)
    (l : List Char) (k : Nat) (hl : noLongRun sp m l)
    (hlead : leadRunLen sp (sp c) l ≤ k) (hk : k + 1 ≤ m) :
    noLongRun sp m (c :: l) := by
  intro a run b cls heq hrun
  cases a with
  | nil =>
    cases run with
    | nil => simp
    | cons c' run' =>
      simp at heq
      obtain ⟨hc', hl'⟩ := heq
      subst hc'
      have hcls : cls = sp c := (hrun c (by simp)).symm
      subst hcls
      have : run'.length ≤ leadRunLen sp (sp c) l :=
        prefRun_le_leadRunLen sp (sp c) run' b l hl'
          (fun d hd => hrun d (by simp [hd]))
      simp
      omega
  | cons a0 a' =>
    simp at heq
    obtain ⟨_, hl'⟩ := heq
    exact hl a' run b cls (by rw [List.append_assoc]; exact hl') hrun

/-- Run-length bound invariant for the split loop: every emitted slice has
no same-class run longer than `m2`. -/
theorem splitRun_noLongRun (sp : Char → Bool) (m2 : Nat) (hm : 1 ≤ m2) :
    ∀ (rest : List Char) (cls : Bool) (len : Nat) (racc : List Char),
      len ≤ m2 → (1 ≤ len ∨ racc = []) → leadRunLen sp cls racc = len →
      noLongRun sp m2 racc →
      ∀ out ∈ splitRun sp m2 rest cls len racc, noLongRun sp m2 out
  | [], cls, len, racc, _hlen, _hor, _hlead, hruns, out, hout => by
    simp [splitRun] at hout
    subst hout
    exact noLongRun_reverse sp m2 racc hruns
  | c :: rest, cls, len, racc, hlen, hor, hlead, hruns, out, hout => by
    by_cases hcls : cls ≠ sp c
    · rw [splitRun] at hout
      simp only [if_pos hcls] at hout
      have hzero : leadRunLen sp (sp c) racc = 0 := by
        cases racc with
        | nil => rfl
        | cons d r =>
          have hd : sp d = cls := by
            by_contra hd
            simp [leadRunLen, hd] at hlead
            rcases hor with h1 | h1
            · omega
            · simp at h1
          have hne : ¬ (sp d = sp c) := by
            rw [hd]
            exact hcls
          simp [leadRunLen, hne]
      refine splitRun_noLongRun sp m2 hm rest (sp c) 1 (c :: racc) hm (Or.inl (by omega))
        ?_ ?_ out hout
      · simp [leadRunLen, hzero]
      · exact noLongRun_cons_of_leadRun sp m2 c racc 0 hruns (by omega) (by omega)
    · by_cases hover : m2 < len + 1
      · rw [splitRun] at hout
        simp only [if_neg hcls, if_pos hover] at hout
        cases hout with
        | head => exact noLongRun_reverse sp m2 racc hruns
        | tail _ hout =>
          refine splitRun_noLongRun sp m2 hm rest (sp c) 1 [c] hm (Or.inl (by omega))
            ?_ (noLongRun_singleton sp m2 hm c) out hout
          simp [leadRunLen]
      · rw [splitRun] at hout
        simp only [if_neg hcls, if_neg hover] at hout
        push_neg at hcls
        subst hcls
        refine splitRun_noLongRun sp m2 hm rest (sp c) (len + 1) (c :: racc) (by omega)
          (Or.inl (by omega)) ?_ ?_ out hout
        · simp [leadRunLen, hlead]
        · exact noLongRun_cons_of_leadRun sp m2 c racc len hruns (le_of_eq hlead) (by omega)

theorem splitWsOrNonWs_noLongRun (sp : Char → Bool) (s : List Char) (m2 : Nat)
    (hm : 1 ≤ m2) : ∀ out ∈ splitWsOrNonWs sp s m2, noLongRun sp m2 out := by
  rw [splitWsOrNonWs_eq_splitRun]
  exact splitRun_noLongRun sp m2 hm s (headClass sp s) 0 [] (by omega)
    (Or.inr rfl) rfl (noLongRun_nil sp m2)

theorem splitRun_length_le (sp : Char → Bool) (m2 : Nat) :
    ∀ (rest : List Char) (cls : Bool) (len : Nat) (racc : List Char),
      ∀ out ∈ splitRun sp m2 rest cls len racc,
        out.length ≤ racc.length + rest.length
  | [], cls, len, racc, out, hout => by
    simp [splitRun] at hout
    simp [hout]
  | c :: rest, cls, len, racc, out, hout => by
    by_cases hcls : cls ≠ sp c
    · rw [splitRun] at hout
      simp only [if_pos hcls] at hout
      have := splitRun_length_le sp m2 rest (sp c) 1 (c :: racc) out hout
      simp at this ⊢
      omega
    · by_cases hover : m2 < len + 1
      · rw [splitRun] at hout
        simp only [if_neg hcls, if_pos hover] at hout
        cases hout with
        | head => simp
        | tail _ hout =>
          have := splitRun_length_le sp m2 rest (sp c) 1 [c] out hout
          simp at this ⊢
          omega
      · rw [splitRun] at hout
        simp only [if_neg hcls, if_neg hover] at hout
        have := splitRun_length_le sp m2 rest cls (len+1) (c :: racc) out hout
        simp at this ⊢
        omega

theorem splitWsOrNonWs_length_le (sp : Char → Bool) (s : List Char) (m2 : Nat) :
    ∀ out ∈ splitWsOrNonWs sp s m2, out.length ≤ s.length := by
  rw [splitWsOrNonWs_eq_splitRun]
  intro out hout
  have := splitRun_length_le sp m2 s (headClass sp s) 0 [] out hout
  simpa using this

theorem hardSlicesGo_length_le : ∀ (fuel : Nat) (s : List Char),
    ∀ h ∈ hardSlicesGo fuel s, h.length ≤ TIKTOKEN_MAX_ENCODE_CHARS
  | _, [], h, hh => by cases ‹Nat› <;> simp [hardSlicesGo] at hh
  | 0, c :: cs, h, hh => by simp [hardSlicesGo] at hh
  | fuel+1, c :: cs, h, hh => by
    rw [hardSlicesGo] at hh
    cases hh with
    | head => simpa using List.length_take_le _ _
    | tail _ hh => exact hardSlicesGo_length_le fuel _ h hh

/-- C5: every substring emitted by the chunking stage of `encode` has length
at most `TIKTOKEN_MAX_ENCODE_CHARS` and no same-class run longer than
`MAX_NO_WHITESPACES_CHARS`. -/
theorem chunkStage_bounds (sp : Char → Bool) (s chunk : List Char)
    (h : chunk ∈ encodeSubstrs sp s) :
    chunk.length ≤ TIKTOKEN_MAX_ENCODE_CHARS ∧
      noLongRun sp MAX_NO_WHITESPACES_CHARS chunk := by
  rw [encodeSubstrs, chunkStageWith] at h
  rw [List.mem_flatten] at h
  obtain ⟨slices, hslices, hchunk⟩ := h
  rw [List.mem_map] at hslices
  obtain ⟨hs, hhs, rfl⟩ := hslices
  constructor
  · calc chunk.length ≤ hs.length := splitWsOrNonWs_length_le sp hs _ chunk hchunk
      _ ≤ TIKTOKEN_MAX_ENCODE_CHARS := hardSlicesGo_length_le s.length s hs hhs
  · exact splitWsOrNonWs_noLongRun sp hs MAX_NO_WHITESPACES_CHARS (by decide) chunk hchunk

/-- Witness for C5 at a concrete input. -/
theorem chunkStage_bounds_witness :
    ("ab ".data ∈ encodeSubstrs (fun c => c.isWhitespace) "ab ".data) ∧
      ("ab ".data.length ≤ TIKTOKEN_MAX_ENCODE_CHARS ∧
        noLongRun (fun c => c.isWhitespace) MAX_NO_WHITESPACES_CHARS "ab ".data) :=
  ⟨by decide, chunkStage_bounds (fun c => c.isWhitespace) "ab ".data "ab ".data (by decide)⟩

/-- C6 (amended): the chunking stage of `encode` yields no slices at all on
the empty string (the hard-slicing `range` is empty), while
`_split_whitespaces_or_nonwhitespaces` alone applied to the empty string
yields exactly one empty slice. -/
theorem chunkStage_empty (sp : Char → Bool) (m2 : Nat) :
    chunkStageWith sp m2 [] = [] ∧ splitWsOrNonWs sp [] m2 = [[]] :=
  ⟨rfl, rfl⟩

/-- Counterexample for C6 as stated: the chunking stage of `encode` on the
empty string does not return one empty slice. -/
theorem chunkStage_empty_cex :
    encodeSubstrs (fun c => c.isWhitespace) [] ≠ [([] : List Char)] := by
  decide


/-! ### Facts about the witness tokenizer -/

theorem char_toNat_lt (c : Char) : c.toNat < 1114112 := by
  have h : c.val.toNat < 0xd800 ∨ (0xdfff < c.val.toNat ∧ c.val.toNat < 0x110000) := c.valid
  rcases h with h | h
  · exact Nat.lt_trans h (by decide)
  · exact h.2

theorem toyEnc_not_mem (x : Nat) (hx : 1114112 ≤ x) (s : String) : x ∉ toyEnc s := by
  intro hmem
  rw [toyEnc, List.mem_map] at hmem
  obtain ⟨c, _, hc⟩ := hmem
  have := char_toNat_lt c
  omega

/-! ### C8: empty content omission in `encode_message` -/

/-- C8: a message whose content is absent, empty, or empty after stripping
encodes to exactly the header tokens followed by the end-of-turn token. -/
theorem encode_message_empty_content (tok : Tokenizer) (m : Message)
    (henc : tok.enc "" = [])
    (h : m.content = none ∨ pyStrip (m.content.getD "") = "") :
    encode_message tok m =
      [tok.startHeaderId] ++ tok.enc m.role ++ [tok.endHeaderId] ++ tok.enc "\n\n"
        ++ [tok.eotId] := by
  cases hc : m.content with
  | none => simp [encode_message, encode_header, hc]
  | some c =>
    rcases h with h | h
    · rw [hc] at h
      exact absurd h (by simp)
    · rw [hc] at h
      simp only [Option.getD_some] at h
      by_cases hce : c = ""
      · simp [encode_message, encode_header, hc, hce]
      · simp [encode_message, encode_header, hc, hce, h, henc]

/-- Witness for C8 at a concrete input (whitespace-only content). -/
theorem encode_message_empty_content_witness :
    (toyTok.enc "" = [] ∧
      ((⟨"user", some " "⟩ : Message).content = none ∨
        pyStrip ((⟨"user", some " "⟩ : Message).content.getD "") = "")) ∧
    encode_message toyTok ⟨"user", some " "⟩ =
      [toyTok.startHeaderId] ++ toyTok.enc "user" ++ [toyTok.endHeaderId]
        ++ toyTok.enc "\n\n" ++ [toyTok.eotId] :=
  ⟨⟨by decide, Or.inr (by decide)⟩,
    encode_message_empty_content toyTok ⟨"user", some " "⟩ (by decide) (Or.inr (by decide))⟩

/-! ### C9: `encode_dialog` on the empty dialog -/

/-- C9 (amended): on the empty dialog, `encode_dialog` fails fast (the
`dialog[-1]` indexing raises) only when `eos` is false; with `eos` true it
returns the optional begin-of-text token followed by end-of-text. -/
theorem encode_dialog_empty (tok : Tokenizer) (bos : Bool) :
    encode_dialog tok [] bos false = none ∧
      encode_dialog tok [] bos true =
        some ((if bos then [tok.bosId] else []) ++ [tok.eosId]) := by
  constructor
  · simp [encode_dialog]
  · simp [encode_dialog]

/-- Counterexample for C9 as stated: with `eos = true` the empty dialog does
not fail; it returns a token sequence. -/
theorem encode_dialog_empty_cex :
    encode_dialog toyTok [] false true = some [2000004] := by decide

/-! ### C7: terminal token of `encode_dialog` -/

theorem mem_of_getLast?_eq_some {α : Type} {l : List α} {a : α}
    (h : l.getLast? = some a) : a ∈ l := by
  have hx : a ∈ l.getLast? := Option.mem_def.mpr h
  obtain ⟨hne, rfl⟩ := List.mem_getLast?_eq_getLast hx
  exact List.getLast_mem hne

theorem encode_message_eq (tok : Tokenizer) (m : Message) :
    encode_message tok m =
      (encode_header tok m ++
        (if (m.content.getD "") ≠ "" then tok.enc (pyStrip (m.content.getD "")) else []))
        ++ [tok.eotId] := by
  simp [encode_message, List.append_assoc]

theorem encode_message_ne_nil (tok : Tokenizer) (m : Message) :
    encode_message tok m ≠ [] := by
  rw [encode_message_eq]
  simp

theorem encode_message_dropLast (tok : Tokenizer) (m : Message) :
    (encode_message tok m).dropLast =
      encode_header tok m ++
        (if (m.content.getD "") ≠ "" then tok.enc (pyStrip (m.content.getD "")) else []) := by
  rw [encode_message_eq]
  exact List.dropLast_concat

theorem encode_message_dropLast_ne_nil (tok : Tokenizer) (m : Message) :
    (encode_message tok m).dropLast ≠ [] := by
  rw [encode_message_dropLast]
  simp [encode_header]

theorem getLast?_encode_message_dropLast (tok : Tokenizer) (m : Message)
    (hspec : ∀ s, tok.eotId ∉ tok.enc s) (hhe : tok.endHeaderId ≠ tok.eotId) :
    ∀ a, ((encode_message tok m).dropLast).getLast? = some a → a ≠ tok.eotId := by
  intro a ha
  rw [encode_message_dropLast] at ha
  have hshape : encode_header tok m ++
      (if (m.content.getD "") ≠ "" then tok.enc (pyStrip (m.content.getD "")) else []) =
      ([tok.startHeaderId] ++ tok.enc m.role ++ [tok.endHeaderId]) ++
        (tok.enc "\n\n" ++
          (if (m.content.getD "") ≠ "" then tok.enc (pyStrip (m.content.getD "")) else [])) := by
    simp [encode_header, List.append_assoc]
  rw [hshape] at ha
  by_cases ht : tok.enc "\n\n" ++
      (if (m.content.getD "") ≠ "" then tok.enc (pyStrip (m.content.getD "")) else []) = []
  · rw [ht, List.append_nil] at ha
    have hlast : ([tok.startHeaderId] ++ tok.enc m.role ++ [tok.endHeaderId]).getLast? =
        some tok.endHeaderId := by
      have hassoc : [tok.startHeaderId] ++ tok.enc m.role ++ [tok.endHeaderId] =
          ([tok.startHeaderId] ++ tok.enc m.role) ++ [tok.endHeaderId] := by
        simp [List.append_assoc]
      rw [hassoc]
      exact List.getLast?_concat _
    rw [hlast] at ha
    have : a = tok.endHeaderId := by
      injection ha with ha
      exact ha.symm
    rw [this]
    exact hhe
  · rw [List.getLast?_append_of_ne_nil _ ht] at ha
    have hmem := mem_of_getLast?_eq_some ha
    rw [List.mem_append] at hmem
    rcases hmem with hmem | hmem
    · intro he
      rw [he] at hmem
      exact hspec "\n\n" hmem
    · by_cases hcc : (m.content.getD "") ≠ ""
      · rw [if_pos hcc] at hmem
        intro he
        rw [he] at hmem
        exact hspec _ hmem
      · rw [if_neg hcc] at hmem
        simp at hmem

/-- C7: with `eos = false` a dialog ending in an assistant turn does not end
with the end-of-turn id; with `eos = true` every dialog ends with the
end-of-text id; and the removal rule only checks the last message's role. -/
theorem encode_dialog_terminal (tok : Tokenizer) (dialog : List Message)
    (hne : dialog ≠ []) (bos : Bool)
    (hspec : ∀ s, tok.eotId ∉ tok.enc s)
    (hhe : tok.endHeaderId ≠ tok.eotId) :
    ((dialog.getLast hne).role = "assistant" →
      ∀ out, encode_dialog tok dialog bos false = some out →
        out.getLast? ≠ some tok.eotId) ∧
    (∀ out, encode_dialog tok dialog bos true = some out →
      out.getLast? = some tok.eosId) ∧
    (∀ out, encode_dialog tok dialog bos false = some out →
      out = if (dialog.getLast hne).role = "assistant"
        then ((if bos then [tok.bosId] else []) ++
          (dialog.map (encode_message tok)).flatten).dropLast
        else (if bos then [tok.bosId] else []) ++
          (dialog.map (encode_message tok)).flatten) := by
  have hgl : dialog.getLast? = some (dialog.getLast hne) :=
    List.getLast?_eq_getLast dialog hne
  have hstruct : ∀ out, encode_dialog tok dialog bos false = some out →
      out = if (dialog.getLast hne).role = "assistant"
        then ((if bos then [tok.bosId] else []) ++
          (dialog.map (encode_message tok)).flatten).dropLast
        else (if bos then [tok.bosId] else []) ++
          (dialog.map (encode_message tok)).flatten := by
    intro out hout
    simp only [encode_dialog, Bool.false_eq_true, if_false, hgl] at hout
    by_cases hr : (dialog.getLast hne).role = "assistant"
    · rw [if_pos hr] at hout ⊢
      injection hout with hout
      exact hout.symm
    · rw [if_neg hr] at hout ⊢
      injection hout with hout
      exact hout.symm
  refine ⟨?_, ?_, hstruct⟩
  · intro hrole out hout
    have hout2 := hstruct out hout
    rw [if_pos hrole] at hout2
    have hdecomp : dialog.dropLast ++ [dialog.getLast hne] = dialog :=
      List.dropLast_append_getLast hne
    have hflat : (dialog.map (encode_message tok)).flatten =
        ((dialog.dropLast).map (encode_message tok)).flatten ++
          encode_message tok (dialog.getLast hne) := by
      conv_lhs => rw [← hdecomp]
      simp
    have htokens : (if bos then [tok.bosId] else []) ++
        (dialog.map (encode_message tok)).flatten =
        ((if bos then [tok.bosId] else []) ++
          ((dialog.dropLast).map (encode_message tok)).flatten) ++
          encode_message tok (dialog.getLast hne) := by
      rw [hflat, List.append_assoc]
    rw [htokens,
      List.dropLast_append_of_ne_nil _ (encode_message_ne_nil tok _)] at hout2
    rw [hout2,
      List.getLast?_append_of_ne_nil _ (encode_message_dropLast_ne_nil tok _)]
    intro heq
    exact getLast?_encode_message_dropLast tok (dialog.getLast hne) hspec hhe
      tok.eotId heq rfl
  · intro out hout
    simp only [encode_dialog, if_true] at hout
    injection hout with hout
    rw [← hout]
    exact List.getLast?_concat _

/-- Witness for C7 at a concrete dialog ending in an assistant turn. -/
theorem encode_dialog_terminal_witness :
    (([(⟨"assistant", some "hi"⟩ : Message)].getLast
        (List.cons_ne_nil _ _)).role = "assistant" →
      ∀ out, encode_dialog toyTok [⟨"assistant", some "hi"⟩] false false = some out →
        out.getLast? ≠ some toyTok.eotId) ∧
    (∀ out, encode_dialog toyTok [⟨"assistant", some "hi"⟩] false true = some out →
      out.getLast? = some toyTok.eosId) ∧
    (∀ out, encode_dialog toyTok [⟨"assistant", some "hi"⟩] false false = some out →
      out = if (([(⟨"assistant", some "hi"⟩ : Message)].getLast
            (List.cons_ne_nil _ _)).role = "assistant")
        then ((if false then [toyTok.bosId] else []) ++
          ([(⟨"assistant", some "hi"⟩ : Message)].map (encode_message toyTok)).flatten).dropLast
        else (if false then [toyTok.bosId] else []) ++
          ([(⟨"assistant", some "hi"⟩ : Message)].map (encode_message toyTok)).flatten) :=
  encode_dialog_terminal toyTok [⟨"assistant", some "hi"⟩] (List.cons_ne_nil _ _) false
    (fun s => toyEnc_not_mem 2000002 (by decide) s) (by decide)

/-! ### Decoding a single framed message (C1, C10) -/

theorem firstIdx_append_of_not_mem : ∀ (A : List Nat) (x : Nat) (B : List Nat), x ∉ A →
    firstIdx (A ++ x :: B) x = some A.length
  | [], x, B, _ => by simp [firstIdx]
  | a :: A, x, B, h => by
    have hax : ¬ (a = x) := by
      intro he
      exact h (by simp [he])
    rw [List.cons_append, firstIdx, if_neg hax,
      firstIdx_append_of_not_mem A x B (fun hm => h (List.mem_cons_of_mem _ hm))]
    simp

theorem take_prefix_some (tok : Tokenizer) (s : String) (t R : List Nat)
    (ht : tok.encAll s = t) :
    take tok (t ++ R) [s] = some (R, t) := by
  have hlen : ¬ ((t ++ R).length < t.length) := by
    rw [List.length_append]
    omega
  have htake : (t ++ R).take t.length = t := List.take_left t R
  have hdrop : (t ++ R).drop t.length = R := List.drop_left t R
  simp [take, ht, hlen, htake, hdrop]

theorem takeUntil_singleton_found (x : Nat) (A B : List Nat) (hA : x ∉ A) (fuel : Nat) :
    takeUntilCands (A ++ x :: B) (fuel+1) [[x]] none = some (PRes.ok (B, A, [x])) := by
  have hlen : ¬ ((A ++ x :: B).length < ([x] : List Nat).length) := by
    simp
  have hidx : indexFrom (A ++ x :: B) x 0 = some A.length := by
    rw [indexFrom, List.drop_zero, firstIdx_append_of_not_mem A x B hA]
    simp
  have hdropA : (A ++ x :: B).drop A.length = x :: B := List.drop_left A (x :: B)
  have hmatch : matchAt (A ++ x :: B) [x] A.length = true := by
    simp [matchAt, hdropA]
  have hsearch : searchCand (A ++ x :: B) [x] (fuel+1) 0 = some (SRes.found A.length) := by
    rw [searchCand]
    rw [if_pos (by simp)]
    simp only [hidx, hmatch, if_true]
  have h3 : (A ++ x :: B).drop (A.length + 1) = B := by
    have hx : A ++ x :: B = (A ++ [x]) ++ B := by simp
    rw [hx]
    have hl : (A ++ [x]).length = A.length + 1 := by simp
    rw [← hl]
    exact List.drop_left _ _
  have htakeA : (A ++ x :: B).take A.length = A := List.take_left A (x :: B)
  rw [takeUntilCands]
  rw [if_neg hlen, hsearch]
  simp [takeUntilCands, h3, htakeA, hdropA]

/-- Decoding a well-formed framed message `StartHeader, R, EndHeader,
Encode("\n\n"), C, EndOfTurn` succeeds whenever the end-of-header id does not
occur in the role tokens and the end-of-turn id does not occur in the content
tokens, and returns the role and content decodings with an empty remainder. -/
theorem decode_message_frame (tok : Tokenizer) (R C : List Nat) (fuel : Nat)
    (hsh : tok.encAll "<|start_header_id|>" = [tok.startHeaderId])
    (heh : tok.encAll "<|end_header_id|>" = [tok.endHeaderId])
    (heot : tok.encAll "<|eot_id|>" = [tok.eotId])
    (hnn : tok.encAll "\n\n" = tok.enc "\n\n")
    (hR : tok.endHeaderId ∉ R)
    (hC : tok.eotId ∉ C) :
    decode_message tok (fuel+1)
      ([tok.startHeaderId] ++ R ++ [tok.endHeaderId] ++ tok.enc "\n\n" ++ C ++ [tok.eotId]) =
      some (PRes.ok ([], ⟨tok.dec R, some (tok.dec C)⟩)) := by
  have hshape : [tok.startHeaderId] ++ R ++ [tok.endHeaderId] ++ tok.enc "\n\n" ++ C
      ++ [tok.eotId] =
      [tok.startHeaderId] ++
        (R ++ tok.endHeaderId :: (tok.enc "\n\n" ++ (C ++ [tok.eotId]))) := by
    simp [List.append_assoc]
  rw [hshape]
  have e1 : take tok ([tok.startHeaderId] ++
      (R ++ tok.endHeaderId :: (tok.enc "\n\n" ++ (C ++ [tok.eotId]))))
      ["<|start_header_id|>"] =
      some ((R ++ tok.endHeaderId :: (tok.enc "\n\n" ++ (C ++ [tok.eotId]))),
        [tok.startHeaderId]) :=
    take_prefix_some tok _ _ _ hsh
  have e2 : takeUntilCands
      (R ++ tok.endHeaderId :: (tok.enc "\n\n" ++ (C ++ [tok.eotId]))) (fuel+1)
      [tok.encAll "<|end_header_id|>"] none =
      some (PRes.ok ((tok.enc "\n\n" ++ (C ++ [tok.eotId])), R, [tok.endHeaderId])) := by
    rw [heh]
    exact takeUntil_singleton_found tok.endHeaderId R _ hR fuel
  have e3 : take tok (tok.enc "\n\n" ++ (C ++ [tok.eotId])) ["\n\n"] =
      some ((C ++ [tok.eotId]), tok.enc "\n\n") :=
    take_prefix_some tok _ _ _ hnn
  have e4 : takeUntilCands (C ++ [tok.eotId]) (fuel+1)
      [tok.encAll "<|eot_id|>"] none =
      some (PRes.ok ([], C, [tok.eotId])) := by
    rw [heot]
    exact takeUntil_singleton_found tok.eotId C [] hC fuel
  simp only [decode_message, decode_header, e1, e2, e3, e4]

/-- C1: round trip of the single message `{role := "user", content := "hello"}`
through `encode_message` then `decode_message`: the message comes back intact
(the content "hello" is its own stripping) with an empty remaining stream. -/
theorem decode_encode_user_hello (tok : Tokenizer)
    (hsh : tok.encAll "<|start_header_id|>" = [tok.startHeaderId])
    (heh : tok.encAll "<|end_header_id|>" = [tok.endHeaderId])
    (heot : tok.encAll "<|eot_id|>" = [tok.eotId])
    (hnn : tok.encAll "\n\n" = tok.enc "\n\n")
    (hrole : tok.endHeaderId ∉ tok.enc "user")
    (hcont : tok.eotId ∉ tok.enc "hello")
    (hdu : tok.dec (tok.enc "user") = "user")
    (hdh : tok.dec (tok.enc "hello") = "hello") :
    decode_messageRun tok (encode_message tok ⟨"user", some "hello"⟩) =
      some (PRes.ok ([], (⟨"user", some "hello"⟩ : Message))) := by
  have hps : pyStrip "hello" = "hello" := by decide
  have hm : encode_message tok ⟨"user", some "hello"⟩ =
      [tok.startHeaderId] ++ tok.enc "user" ++ [tok.endHeaderId] ++ tok.enc "\n\n"
        ++ tok.enc "hello" ++ [tok.eotId] := by
    simp only [encode_message, encode_header, Option.getD_some, hps]
    simp [List.append_assoc]
  rw [decode_messageRun, hm]
  have := decode_message_frame tok (tok.enc "user") (tok.enc "hello")
    (([tok.startHeaderId] ++ tok.enc "user" ++ [tok.endHeaderId] ++ tok.enc "\n\n"
      ++ tok.enc "hello" ++ [tok.eotId]).length) hsh heh heot hnn hrole hcont
  rw [hdu, hdh] at this
  exact this

/-- Witness for C1 with the concrete witness tokenizer. -/
theorem decode_encode_user_hello_witness :
    decode_messageRun toyTok (encode_message toyTok ⟨"user", some "hello"⟩) =
      some (PRes.ok ([], (⟨"user", some "hello"⟩ : Message))) :=
  decode_encode_user_hello toyTok (by decide) (by decide) (by decide) (by decide)
    (by decide) (by decide) (by decide) (by decide)

theorem decode_message_content_total (tok : Tokenizer) (fuel : Nat)
    (tokens rest : List Nat) (msg : Message)
    (h : decode_message tok fuel tokens = some (PRes.ok (rest, msg))) :
    msg.content ≠ none := by
  rw [decode_message] at h
  split at h
  · exact absurd h (by simp)
  · exact absurd h (by simp)
  · exact absurd h (by simp)
  · split at h
    · exact absurd h (by simp)
    · exact absurd h (by simp)
    · exact absurd h (by simp)
    · simp only [Option.some.injEq, PRes.ok.injEq, Prod.mk.injEq] at h
      obtain ⟨_, hmsg⟩ := h
      rw [← hmsg]
      simp

/-- C10: `decode_message` always produces a message whose content field is
present, and the round trip of a message with absent (or empty) content
yields the empty string as content, not absence. -/
theorem decode_message_content_round (tok : Tokenizer) (m : Message)
    (hsh : tok.encAll "<|start_header_id|>" = [tok.startHeaderId])
    (heh : tok.encAll "<|end_header_id|>" = [tok.endHeaderId])
    (heot : tok.encAll "<|eot_id|>" = [tok.eotId])
    (hnn : tok.encAll "\n\n" = tok.enc "\n\n")
    (hrole : tok.endHeaderId ∉ tok.enc m.role)
    (hdrole : tok.dec (tok.enc m.role) = m.role)
    (hdnil : tok.dec [] = "")
    (hcm : m.content = none ∨ m.content = some "") :
    (∀ fuel tokens rest msg,
      decode_message tok fuel tokens = some (PRes.ok (rest, msg)) →
        msg.content ≠ none) ∧
    decode_messageRun tok (encode_message tok m) =
      some (PRes.ok ([], ⟨m.role, some ""⟩)) := by
  refine ⟨fun fuel tokens rest msg h =>
    decode_message_content_total tok fuel tokens rest msg h, ?_⟩
  have hm : encode_message tok m =
      [tok.startHeaderId] ++ tok.enc m.role ++ [tok.endHeaderId] ++ tok.enc "\n\n"
        ++ [tok.eotId] := by
    rcases hcm with hc | hc
    · simp [encode_message, encode_header, hc, List.append_assoc]
    · simp [encode_message, encode_header, hc, List.append_assoc]
  rw [decode_messageRun, hm]
  have hfr := decode_message_frame tok (tok.enc m.role) []
    (([tok.startHeaderId] ++ tok.enc m.role ++ [tok.endHeaderId] ++ tok.enc "\n\n"
      ++ [tok.eotId]).length) hsh heh heot hnn hrole (by simp)
  rw [hdrole, hdnil] at hfr
  simpa using hfr

/-- Witness for C10 with the concrete witness tokenizer and a content-free
message. -/
theorem decode_message_content_round_witness :
    (∀ fuel tokens rest msg,
      decode_message toyTok fuel tokens = some (PRes.ok (rest, msg)) →
        msg.content ≠ none) ∧
    decode_messageRun toyTok (encode_message toyTok ⟨"system", none⟩) =
      some (PRes.ok ([], ⟨"system", some ""⟩)) :=
  decode_message_content_round toyTok ⟨"system", none⟩ (by decide) (by decide)
    (by decide) (by decide) (by decide) (by decide) (by decide) (Or.inl rfl)

/-! ### The inner search loop of `_take_until` -/

theorem indexFrom_self (tokens : List Nat) (x : Nat) (o : Nat) (rest : List Nat)
    (h : tokens.drop o = x :: rest) : indexFrom tokens x o = some o := by
  rw [indexFrom, h, firstIdx]
  simp

/-- The loop never advances past a failed window comparison: when the first
candidate token occurs at `o` but the full window does not match there, the
loop re-finds the same offset forever and diverges. -/
theorem searchCand_stuck : ∀ (fuel : Nat) (tokens : List Nat) (x : Nat) (t' rest : List Nat)
    (o : Nat), tokens.drop o = x :: rest → matchAt tokens (x :: t') o = false →
    searchCand tokens (x :: t') fuel o = none
  | 0, _, _, _, _, _, _, _ => rfl
  | fuel+1, tokens, x, t', rest, o, h, hm => by
    have ho : o < tokens.length := by
      have := congrArg List.length h
      simp at this
      omega
    rw [searchCand, if_pos ho, indexFrom_self tokens x o rest h]
    simp only [hm, Bool.false_eq_true, if_false]
    exact searchCand_stuck fuel tokens x t' rest o h hm

/-- C2 fails on the code: on a stream where the candidate's first token
occurs before the candidate's (existing) occurrence, `_take_until` never
returns for any amount of fuel — the Python loop runs forever.  Here the toy
encoding of "ab" is `[97, 98]`, which occurs at offset 2 of the stream, but
its first token 97 also occurs at offset 0. -/
theorem take_until_diverges :
    (∀ fuel, take_until toyTok fuel [97, 99, 97, 98] ["ab"] = none) ∧
      occursAt [97, 99, 97, 98] (toyTok.encAll "ab") 2 := by
  constructor
  · intro fuel
    rw [take_until]
    have hmap : ([("ab" : String)].map toyTok.encAll) = [[97, 98]] := by decide
    rw [hmap, takeUntilCands, if_neg (by decide)]
    rw [searchCand_stuck fuel [97, 99, 97, 98] 97 [98] [99, 97, 98] 0 rfl (by decide)]
  · decide

/-! ### Earliest-match analysis of `_take_until` (C3) -/

theorem matchAt_iff (tokens t : List Nat) (o : Nat) :
    matchAt tokens t o = true ↔ occursAt tokens t o := by
  rw [matchAt, occursAt]
  exact decide_eq_true_iff

theorem occursAt_head {tokens : List Nat} {x : Nat} {t' : List Nat} {o : Nat}
    (h : occursAt tokens (x :: t') o) : ∃ rest, tokens.drop o = x :: rest := by
  rw [occursAt] at h
  cases hd : tokens.drop o with
  | nil => rw [hd] at h; simp at h
  | cons y ys =>
    rw [hd] at h
    rw [List.length_cons, List.take_succ_cons] at h
    injection h with h1 _
    exact ⟨ys, by rw [h1]⟩


theorem not_occursAt_of_long (tokens t : List Nat) (o : Nat)
    (hl : tokens.length < t.length) : ¬ occursAt tokens t o := by
  intro h
  rw [occursAt] at h
  have := congrArg List.length h
  simp at this
  omega

theorem occursAt_mem_drop {tokens : List Nat} {x : Nat} {t' : List Nat} {o off : Nat}
    (hoff : off ≤ o) (h : occursAt tokens (x :: t') o) : x ∈ tokens.drop off := by
  obtain ⟨rest, hd⟩ := occursAt_head h
  have hdd : (tokens.drop off).drop (o - off) = x :: rest := by
    rw [List.drop_drop]
    have harith : off + (o - off) = o := by omega
    rw [harith, hd]
  exact List.mem_of_mem_drop (by rw [hdd]; simp)

theorem firstIdx_eq_some : ∀ (l : List Nat) (x : Nat) (i : Nat), firstIdx l x = some i →
    ∃ A B, l = A ++ x :: B ∧ A.length = i ∧ x ∉ A
  | [], x, i, h => by simp [firstIdx] at h
  | y :: rest, x, i, h => by
    rw [firstIdx] at h
    by_cases hy : y = x
    · rw [if_pos hy] at h
      injection h with h
      subst hy
      exact ⟨[], rest, by simp, by simp [← h], by simp⟩
    · rw [if_neg hy] at h
      cases hf : firstIdx rest x with
      | none => rw [hf] at h; simp at h
      | some j =>
        rw [hf] at h
        simp at h
        obtain ⟨A, B, hl, hA, hnx⟩ := firstIdx_eq_some rest x j hf
        refine ⟨y :: A, B, by simp [hl], by simp [hA]; omega, ?_⟩
        intro hm
        rcases List.mem_cons.mp hm with hm | hm
        · exact hy hm.symm
        · exact hnx hm

theorem firstIdx_eq_none : ∀ (l : List Nat) (x : Nat), firstIdx l x = none → x ∉ l
  | [], x, _ => by simp
  | y :: rest, x, h => by
    rw [firstIdx] at h
    by_cases hy : y = x
    · rw [if_pos hy] at h; simp at h
    · rw [if_neg hy] at h
      cases hf : firstIdx rest x with
      | none =>
        intro hm
        rcases List.mem_cons.mp hm with hm | hm
        · exact hy hm.symm
        · exact firstIdx_eq_none rest x hf hm
      | some j => rw [hf] at h; simp at h

theorem indexFrom_eq_some (tokens : List Nat) (x off o : Nat)
    (h : indexFrom tokens x off = some o) :
    ∃ A B, tokens.drop off = A ++ x :: B ∧ A.length = o - off ∧ off ≤ o ∧ x ∉ A := by
  rw [indexFrom] at h
  cases hf : firstIdx (tokens.drop off) x with
  | none => rw [hf] at h; simp at h
  | some j =>
    rw [hf] at h
    simp at h
    obtain ⟨A, B, hl, hA, hnx⟩ := firstIdx_eq_some _ x j hf
    exact ⟨A, B, hl, by omega, by omega, hnx⟩

theorem indexFrom_eq_none (tokens : List Nat) (x off : Nat)
    (h : indexFrom tokens x off = none) : x ∉ tokens.drop off := by
  rw [indexFrom] at h
  cases hf : firstIdx (tokens.drop off) x with
  | none => exact firstIdx_eq_none _ x hf
  | some j => rw [hf] at h; simp at h

/-- When the inner loop returns a found offset, the candidate occurs there
and at no earlier offset at or after the starting offset. -/
theorem searchCand_found (tokens : List Nat) (x : Nat) (t' : List Nat)
    (fuel off o : Nat)
    (h : searchCand tokens (x :: t') fuel off = some (SRes.found o)) :
    occursAt tokens (x :: t') o ∧ off ≤ o ∧
      ∀ o2, off ≤ o2 → o2 < o → ¬ occursAt tokens (x :: t') o2 := by
  cases fuel with
  | zero => simp [searchCand] at h
  | succ fuel =>
    rw [searchCand] at h
    by_cases hoff : off < tokens.length
    · rw [if_pos hoff] at h
      split at h
      · simp at h
      · rename_i o1 hidx
        split at h
        · rename_i hm
          have ho1 : o1 = o := by
            simp at h
            exact h
          subst ho1
          obtain ⟨A, B, hl, hA, hle, hnx⟩ := indexFrom_eq_some tokens x off o1 hidx
          refine ⟨(matchAt_iff tokens (x :: t') o1).mp hm, hle, ?_⟩
          intro o2 h1 h2 hocc
          obtain ⟨r2, hd2⟩ := occursAt_head hocc
          have hdd : (tokens.drop off).drop (o2 - off) = x :: r2 := by
            rw [List.drop_drop]
            have harith : off + (o2 - off) = o2 := by omega
            rw [harith, hd2]
          rw [hl] at hdd
          have hk : o2 - off < A.length := by omega
          have hsplit : (A ++ x :: B).drop (o2 - off) =
              A.drop (o2 - off) ++ x :: B := by
            rw [List.drop_append_eq_append_drop]
            have : o2 - off - A.length = 0 := by omega
            rw [this, List.drop_zero]
          rw [hsplit] at hdd
          cases hAd : A.drop (o2 - off) with
          | nil =>
            have := congrArg List.length hAd
            simp at this
            omega
          | cons a0 as =>
            rw [hAd] at hdd
            rw [List.cons_append] at hdd
            injection hdd with h1' _
            apply hnx
            have ha0 : a0 ∈ A.drop (o2 - off) := by rw [hAd]; simp
            rw [h1'] at ha0
            exact List.mem_of_mem_drop ha0
        · rename_i hm
          obtain ⟨A, B, hl, hA, hle, hnx⟩ := indexFrom_eq_some tokens x off o1 hidx
          have hdrop1 : tokens.drop o1 = x :: B := by
            have : tokens.drop o1 = (tokens.drop off).drop (o1 - off) := by
              rw [List.drop_drop]
              have harith : off + (o1 - off) = o1 := by omega
              rw [harith]
            rw [this, hl, ← hA, List.drop_left]
          have hmf : matchAt tokens (x :: t') o1 = false := by
            simp at hm
            exact hm
          rw [searchCand_stuck fuel tokens x t' B o1 hdrop1 hmf] at h
          simp at h
    · rw [if_neg hoff] at h
      simp at h

/-- When the inner loop reports no match (the caught `ValueError`, or the
loop guard failing), the candidate has no occurrence at or after `off`. -/
theorem searchCand_nomatch (tokens : List Nat) (x : Nat) (t' : List Nat)
    (fuel off : Nat)
    (h : searchCand tokens (x :: t') fuel off = some SRes.nomatch) :
    ∀ o, off ≤ o → ¬ occursAt tokens (x :: t') o := by
  cases fuel with
  | zero => simp [searchCand] at h
  | succ fuel =>
    rw [searchCand] at h
    by_cases hoff : off < tokens.length
    · rw [if_pos hoff] at h
      split at h
      · rename_i hidx
        intro o ho hocc
        exact indexFrom_eq_none tokens x off hidx (occursAt_mem_drop ho hocc)
      · rename_i o1 hidx
        split at h
        · rename_i hm
          simp at h
        · rename_i hm
          obtain ⟨A, B, hl, hA, hle, hnx⟩ := indexFrom_eq_some tokens x off o1 hidx
          have hdrop1 : tokens.drop o1 = x :: B := by
            have : tokens.drop o1 = (tokens.drop off).drop (o1 - off) := by
              rw [List.drop_drop]
              have harith : off + (o1 - off) = o1 := by omega
              rw [harith]
            rw [this, hl, ← hA, List.drop_left]
          have hmf : matchAt tokens (x :: t') o1 = false := by
            simp at hm
            exact hm
          rw [searchCand_stuck fuel tokens x t' B o1 hdrop1 hmf] at h
          simp at h
    · rw [if_neg hoff] at h
      intro o ho hocc
      obtain ⟨rest2, hd⟩ := occursAt_head hocc
      have hnil : tokens.drop o = [] := List.drop_eq_nil_of_le (by omega)
      rw [hnil] at hd
      simp at hd

/-- The inner loop never raises the `IndexError` for a non-empty candidate. -/
theorem searchCand_ne_crash (tokens : List Nat) (x : Nat) (t' : List Nat)
    (fuel off : Nat) :
    searchCand tokens (x :: t') fuel off ≠ some SRes.crash := by
  cases fuel with
  | zero => simp [searchCand]
  | succ fuel =>
    rw [searchCand]
    by_cases hoff : off < tokens.length
    · rw [if_pos hoff]
      split
      · rename_i hidx
        simp
      · rename_i o1 hidx
        split
        · rename_i hm
          simp
        · rename_i hm
          obtain ⟨A, B, hl, hA, hle, hnx⟩ := indexFrom_eq_some tokens x off o1 hidx
          have hdrop1 : tokens.drop o1 = x :: B := by
            have : tokens.drop o1 = (tokens.drop off).drop (o1 - off) := by
              rw [List.drop_drop]
              have harith : off + (o1 - off) = o1 := by omega
              rw [harith]
            rw [this, hl, ← hA, List.drop_left]
          have hmf : matchAt tokens (x :: t') o1 = false := by
            simp at hm
            exact hm
          rw [searchCand_stuck fuel tokens x t' B o1 hdrop1 hmf]
          simp
    · rw [if_neg hoff]
      simp

theorem BestInv_extend_nocc (tokens : List Nat) (done : List (List Nat))
    (best : Option (Nat × List Nat)) (t : List Nat)
    (hinv : BestInv tokens done best) (hno : ∀ o, ¬ occursAt tokens t o) :
    BestInv tokens (done ++ [t]) best := by
  cases best with
  | none =>
    simp only [BestInv] at hinv ⊢
    intro t' ht' o
    rcases List.mem_append.mp ht' with ht' | ht'
    · exact hinv t' ht' o
    · simp at ht'
      subst ht'
      exact hno o
  | some b =>
    obtain ⟨off, bt⟩ := b
    simp only [BestInv] at hinv ⊢
    obtain ⟨hocc, ⟨d1, d2, hdec, hd1⟩, hmin⟩ := hinv
    refine ⟨hocc, ⟨d1, d2 ++ [t], by rw [hdec]; simp, hd1⟩, ?_⟩
    intro t' ht' o ho
    rcases List.mem_append.mp ht' with ht' | ht'
    · exact hmin t' ht' o ho
    · simp at ht'
      subst ht'
      exact absurd ho (hno o)

/-- Invariant proof for the candidate loop of `_take_until`: whenever the
loop returns a triple, the match is at the globally earliest occurrence and,
among candidates occurring at that offset, the first-processed one wins. -/
theorem takeUntilCands_go (tokens : List Nat) (fuel : Nat) :
    ∀ (cands done : List (List Nat)) (best : Option (Nat × List Nat))
      (r p mseq : List Nat),
      (∀ t ∈ cands, t ≠ []) →
      BestInv tokens done best →
      takeUntilCands tokens fuel cands best = some (PRes.ok (r, p, mseq)) →
      ∃ off c1 c2,
        done ++ cands = c1 ++ mseq :: c2 ∧
        occursAt tokens mseq off ∧
        p = tokens.take off ∧
        r = tokens.drop (off + mseq.length) ∧
        (∀ t ∈ done ++ cands, ∀ o, occursAt tokens t o → off ≤ o) ∧
        (∀ t ∈ c1, ¬ occursAt tokens t off)
  | [], done, best, r, p, mseq, _hne, hinv, h => by
    cases best with
    | none => rw [takeUntilCands] at h; simp at h
    | some b =>
      obtain ⟨off, t⟩ := b
      rw [takeUntilCands] at h
      simp only [Option.some.injEq, PRes.ok.injEq, Prod.mk.injEq] at h
      obtain ⟨h1, h2, h3⟩ := h
      subst h1
      subst h2
      subst h3
      simp only [BestInv] at hinv
      obtain ⟨hocc, ⟨d1, d2, hdec, hd1⟩, hmin⟩ := hinv
      have hocc' : (tokens.drop off).take t.length = t := hocc
      rw [hocc']
      refine ⟨off, d1, d2, by simpa using hdec, hocc, rfl, rfl, ?_, hd1⟩
      intro t' ht' o ho
      exact hmin t' (by simpa using ht') o ho
  | t :: rest, done, best, r, p, mseq, hne, hinv, h => by
    have hte : t ≠ [] := hne t (by simp)
    obtain ⟨x, t', rfl⟩ : ∃ x t2, t = x :: t2 := by
      cases t with
      | nil => exact absurd rfl hte
      | cons a b => exact ⟨a, b, rfl⟩
    rw [takeUntilCands] at h
    by_cases hlen : tokens.length < (x :: t').length
    · rw [if_pos hlen] at h
      have hno : ∀ o, ¬ occursAt tokens (x :: t') o :=
        fun o => not_occursAt_of_long tokens _ o hlen
      obtain ⟨off, c1, c2, hdec, hocc, hp, hr, hmin, htie⟩ :=
        takeUntilCands_go tokens fuel rest (done ++ [x :: t']) best r p mseq
          (fun t2 ht2 => hne t2 (by simp [ht2]))
          (BestInv_extend_nocc tokens done best (x :: t') hinv hno) h
      refine ⟨off, c1, c2, by simpa [List.append_assoc] using hdec, hocc, hp, hr, ?_, htie⟩
      intro t2 ht2 o ho
      refine hmin t2 ?_ o ho
      simpa [List.append_assoc] using ht2
    · rw [if_neg hlen] at h
      split at h
      · simp at h
      · simp at h
      · rename_i hs
        have hno : ∀ o, ¬ occursAt tokens (x :: t') o :=
          fun o => searchCand_nomatch tokens x t' fuel 0 hs o (Nat.zero_le o)
        obtain ⟨off, c1, c2, hdec, hocc, hp, hr, hmin, htie⟩ :=
          takeUntilCands_go tokens fuel rest (done ++ [x :: t']) best r p mseq
            (fun t2 ht2 => hne t2 (by simp [ht2]))
            (BestInv_extend_nocc tokens done best (x :: t') hinv hno) h
        refine ⟨off, c1, c2, by simpa [List.append_assoc] using hdec, hocc, hp, hr, ?_, htie⟩
        intro t2 ht2 o ho
        refine hmin t2 ?_ o ho
        simpa [List.append_assoc] using ht2
      · rename_i o1 hs
        obtain ⟨hocc1, _, hmin1⟩ := searchCand_found tokens x t' fuel 0 o1 hs
        have hminall : ∀ o2, occursAt tokens (x :: t') o2 → o1 ≤ o2 := by
          intro o2 ho2
          by_contra hlt
          push_neg at hlt
          exact hmin1 o2 (Nat.zero_le o2) hlt ho2
        split at h
        · -- best was None: it becomes (o1, x :: t')
          simp only [BestInv] at hinv
          have hinv' : BestInv tokens (done ++ [x :: t']) (some (o1, x :: t')) := by
            simp only [BestInv]
            refine ⟨hocc1, ⟨done, [], by simp, fun t2 ht2 => hinv t2 ht2 o1⟩, ?_⟩
            intro t2 ht2 o ho
            rcases List.mem_append.mp ht2 with ht2 | ht2
            · exact absurd ho (hinv t2 ht2 o)
            · simp at ht2
              subst ht2
              exact hminall o ho
          obtain ⟨off, c1, c2, hdec, hocc, hp, hr, hmin, htie⟩ :=
            takeUntilCands_go tokens fuel rest (done ++ [x :: t'])
              (some (o1, x :: t')) r p mseq
              (fun t2 ht2 => hne t2 (by simp [ht2])) hinv' h
          refine ⟨off, c1, c2, by simpa [List.append_assoc] using hdec, hocc, hp, hr, ?_, htie⟩
          intro t2 ht2 o ho
          refine hmin t2 ?_ o ho
          simpa [List.append_assoc] using ht2
        · -- best was Some (boff, bt)
          rename_i boff bt
          simp only [BestInv] at hinv
          obtain ⟨hbocc, ⟨d1, d2, hddec, hd1⟩, hbmin⟩ := hinv
          by_cases hlt : o1 < boff
          · rw [if_pos hlt] at h
            have hinv' : BestInv tokens (done ++ [x :: t']) (some (o1, x :: t')) := by
              simp only [BestInv]
              refine ⟨hocc1, ⟨done, [], by simp, ?_⟩, ?_⟩
              · intro t2 ht2 hocc2
                have := hbmin t2 ht2 o1 hocc2
                omega
              · intro t2 ht2 o ho
                rcases List.mem_append.mp ht2 with ht2 | ht2
                · have := hbmin t2 ht2 o ho
                  omega
                · simp at ht2
                  subst ht2
                  exact hminall o ho
            obtain ⟨off, c1, c2, hdec, hocc, hp, hr, hmin, htie⟩ :=
              takeUntilCands_go tokens fuel rest (done ++ [x :: t'])
                (some (o1, x :: t')) r p mseq
                (fun t2 ht2 => hne t2 (by simp [ht2])) hinv' h
            refine ⟨off, c1, c2, by simpa [List.append_assoc] using hdec, hocc, hp, hr, ?_, htie⟩
            intro t2 ht2 o ho
            refine hmin t2 ?_ o ho
            simpa [List.append_assoc] using ht2
          · rw [if_neg hlt] at h
            have hinv' : BestInv tokens (done ++ [x :: t']) (some (boff, bt)) := by
              simp only [BestInv]
              refine ⟨hbocc, ⟨d1, d2 ++ [x :: t'], by rw [hddec]; simp, hd1⟩, ?_⟩
              intro t2 ht2 o ho
              rcases List.mem_append.mp ht2 with ht2 | ht2
              · exact hbmin t2 ht2 o ho
              · simp at ht2
                subst ht2
                have := hminall o ho
                omega
            obtain ⟨off, c1, c2, hdec, hocc, hp, hr, hmin, htie⟩ :=
              takeUntilCands_go tokens fuel rest (done ++ [x :: t'])
                (some (boff, bt)) r p mseq
                (fun t2 ht2 => hne t2 (by simp [ht2])) hinv' h
            refine ⟨off, c1, c2, by simpa [List.append_assoc] using hdec, hocc, hp, hr, ?_, htie⟩
            intro t2 ht2 o ho
            refine hmin t2 ?_ o ho
            simpa [List.append_assoc] using ht2

/-- C3 (amended): whenever `_take_until` terminates with a triple, the match
is at the earliest starting position at which any candidate's encoded form
occurs, regardless of listing order, and among the encoded candidates the
first one with an occurrence at that offset is the one matched (candidates
with non-empty encodings). -/
theorem take_until_earliest (tok : Tokenizer) (tokens : List Nat) (fuel : Nat)
    (strs : List String) (r p mseq : List Nat)
    (hne : ∀ s ∈ strs, tok.encAll s ≠ [])
    (hrun : take_until tok fuel tokens strs = some (PRes.ok (r, p, mseq))) :
    ∃ off c1 c2,
      strs.map tok.encAll = c1 ++ mseq :: c2 ∧
      occursAt tokens mseq off ∧
      p = tokens.take off ∧
      r = tokens.drop (off + mseq.length) ∧
      (∀ s ∈ strs, ∀ o, occursAt tokens (tok.encAll s) o → off ≤ o) ∧
      (∀ t ∈ c1, ¬ occursAt tokens t off) := by
  rw [take_until] at hrun
  have hinv0 : BestInv tokens [] none := by
    simp only [BestInv]
    intro t ht
    exact absurd ht (List.not_mem_nil t)
  obtain ⟨off, c1, c2, hdec, hocc, hp, hr, hmin, htie⟩ :=
    takeUntilCands_go tokens fuel (strs.map tok.encAll) [] none r p mseq
      (by
        intro t ht
        rw [List.mem_map] at ht
        obtain ⟨s, hs, rfl⟩ := ht
        exact hne s hs)
      hinv0 hrun
  refine ⟨off, c1, c2, by simpa using hdec, hocc, hp, hr, ?_, htie⟩
  intro s hs o ho
  refine hmin (tok.encAll s) ?_ o ho
  simp
  exact ⟨s, hs, rfl⟩

/-- Witness for the amended C3: with candidates listed as "ab" then "cd", a
stream in which "cd"'s encoding occurs earlier (offset 0) than "ab"'s
(offset 2) still yields the "cd" match. -/
theorem take_until_earliest_witness :
    (∀ s ∈ (["ab", "cd"] : List String), toyTok.encAll s ≠ []) ∧
    ∃ off c1 c2,
      (["ab", "cd"] : List String).map toyTok.encAll = c1 ++ [99, 100] :: c2 ∧
      occursAt [99, 100, 97, 98] [99, 100] off ∧
      ([] : List Nat) = List.take off [99, 100, 97, 98] ∧
      [97, 98] = List.drop (off + ([99, 100] : List Nat).length) [99, 100, 97, 98] ∧
      (∀ s ∈ (["ab", "cd"] : List String), ∀ o,
        occursAt [99, 100, 97, 98] (toyTok.encAll s) o → off ≤ o) ∧
      (∀ t ∈ c1, ¬ occursAt [99, 100, 97, 98] t off) :=
  ⟨by decide,
    take_until_earliest toyTok [99, 100, 97, 98] 5 ["ab", "cd"] [97, 98] [] [99, 100]
      (by decide) (by decide)⟩

/-- Counterexample for C3 as stated: on the stream `[97, 101, 99, 100, 97, 98]`
with candidates "ab" (encoded `[97, 98]`, occurring at 4) and "cd" (encoded
`[99, 100]`, occurring earliest at 2), `_take_until` never returns at all:
while scanning for "ab" it hits the stray 97 at offset 0 and loops forever. -/
theorem take_until_earliest_cex : ¬ TakeUntilEarliestClaim := by
  intro hcl
  obtain ⟨fuel, r, p, mseq, hrun, _⟩ :=
    hcl toyTok [97, 101, 99, 100, 97, 98] "cd" "ab" 2 4
      (by decide) (by decide) (by decide) (by decide) (by decide)
      (by
        intro o ho
        interval_cases o
        · decide
        · decide)
  have hdiv : take_until toyTok fuel [97, 101, 99, 100, 97, 98] ["ab", "cd"] = none := by
    rw [take_until]
    have hmap : ((["ab", "cd"] : List String).map toyTok.encAll) = [[97, 98], [99, 100]] := by
      decide
    rw [hmap, takeUntilCands, if_neg (by decide)]
    rw [searchCand_stuck fuel [97, 101, 99, 100, 97, 98] 97 [98] [101, 99, 100, 97, 98] 0
      rfl (by decide)]
  rw [hdiv] at hrun
  simp at hrun
